import Mathlib

/-!
Verification of the pymola Modelica front-end core against its design
specification.  The definitions below are shallow embeddings of the
corresponding Python functions in `src/pymola/ast.py` and
`src/pymola/backends/casadi/generator.py`; each definition's doc comment
names the Python symbol it embeds.  Python strings are modeled as Lean
`String` (with character-level helpers over `List Char` where the code
manipulates individual characters), Python lists as `List`, Python dicts
as association lists with last-assignment-wins lookup, and raised
exceptions as `Option`/`Except` results.
-/

namespace Pymola


/-! ## Character-level string helpers

`str.split('.')` and `'.'.join(...)` from Python, modeled on `List Char`. -/

/-- Embedding of Python `s.split('.')` at the character level: split a
character list at every occurrence of `'.'`. -/
def splitDotChars : List Char → List (List Char)
  | [] => [[]]
  | c :: cs =>
    if c = '.' then [] :: splitDotChars cs
    else
      match splitDotChars cs with
      | [] => [[c]]
      | h :: t => (c :: h) :: t

/-- Embedding of Python `'.'.join(...)` at the character level. -/
def joinDotChars : List (List Char) → List Char
  | [] => []
  | [x] => x
  | x :: y :: xs => x ++ '.' :: joinDotChars (y :: xs)

/-- Embedding of Python `s.split('.')` on `String`. -/
def pySplitDot (s : String) : List String :=
  (splitDotChars s.data).map (fun l => String.mk l)

/-- Embedding of Python `'.'.join(parts)` on `String`. -/
def pyJoinDot (parts : List String) : String :=
  String.mk (joinDotChars (parts.map String.data))

/-! ## ComponentRef (`src/pymola/ast.py`, class `ComponentRef`)

A dotted path `a.b.c[i]`.  Index expressions are irrelevant to every
operation modeled here (`to_tuple` ignores them), so they are embedded as
opaque placeholders. -/

/-- Embedding of `ast.ComponentRef`: fields `name`, `indices`, `child`.
`child` is a list of nested references (empty or a singleton in
well-formed trees). -/
inductive ComponentRef where
  | mk (name : String) (indices : List Unit) (child : List ComponentRef)

/-- Field accessor `component_ref.name`. -/
def ComponentRef.name : ComponentRef → String
  | .mk n _ _ => n

/-- Embedding of `ComponentRef.to_tuple`: flatten the nested reference to
the list of names, ignoring indices, following the head of `child`. -/
def ComponentRef.to_tuple : ComponentRef → List String
  | .mk n _ [] => [n]
  | .mk n _ (c :: _) => n :: c.to_tuple

/-- The right-nested chain built by the loop in `ComponentRef.from_tuple`:
`components[0]` becomes the root and each later name is appended as the
single child of the previous node. -/
def ComponentRef.fromTupleCore (n : String) : List String → ComponentRef
  | [] => .mk n [] []
  | m :: rest => .mk n [] [fromTupleCore m rest]

/-- Embedding of `ComponentRef.from_tuple`.  Python raises `IndexError`
on an empty tuple (`components[0]`), modeled as `none`. -/
def ComponentRef.from_tuple : List String → Option ComponentRef
  | [] => none
  | n :: rest => some (ComponentRef.fromTupleCore n rest)

/-- Embedding of `ComponentRef.from_string`: split on dots, then
`from_tuple`. -/
def ComponentRef.from_string (s : String) : Option ComponentRef :=
  match pySplitDot s with
  | [] => none
  | n :: rest => some (ComponentRef.fromTupleCore n rest)

/-- Embedding of `ComponentRef.__str__`: `'.'.join(self.to_tuple())`. -/
def ComponentRef.to_string (c : ComponentRef) : String :=
  pyJoinDot c.to_tuple

/-- One step of the loop body of `ComponentRef.concatenate`: walk to the
deepest node along the heads of `child` and attach `b` there.  The walk
follows `child[0]` exactly as the Python `while n.child: n = n.child[0]`
loop does; siblings beyond the head are preserved. -/
def ComponentRef.attachDeepest (a b : ComponentRef) : ComponentRef :=
  match a with
  | .mk n idx [] => .mk n idx [b]
  | .mk n idx (c :: cs) => .mk n idx (c.attachDeepest b :: cs)

/-- Embedding of `ComponentRef.concatenate(*args)`: deep-copy the first
argument and successively attach (copies of) the remaining arguments at
the deepest child.  Python raises `IndexError` on an empty argument list
(`args[0]`), modeled as `none`.  In this pure embedding the deep copies
of the source are value copies by construction, so the inputs are
trivially unmodified. -/
def ComponentRef.concatenate : List ComponentRef → Option ComponentRef
  | [] => none
  | a :: rest => some (rest.foldl ComponentRef.attachDeepest a)

/-! ## Collection and class lookup (`src/pymola/ast.py`, class `Collection`)

Classes carry only the fields relevant to lookup: `name`, `type`, and the
ordered mapping of nested classes (its values).  The flat class-lookup
table is a Python dict keyed by tuples of names, modeled as an
association list with last-assignment-wins lookup. -/

/-- Embedding of `ast.Class` restricted to the fields the class lookup
touches: `name`, `type`, and the values of the ordered `classes` map. -/
inductive ClassV where
  | mk (name : String) (type : String) (classes : List ClassV)

/-- The flat mapping from fully-qualified name tuples to classes
(`Collection._class_lookup`). -/
abbrev Lookup := List (List String × ClassV)

/-- Python dict lookup `d.get(k, None)`: the most recent assignment to
`k` wins. -/
def lookupGet (d : Lookup) (k : List String) : Option ClassV :=
  (List.find? (fun p => decide (p.1 = k)) d.reverse).map (fun p => p.2)

mutual

/-- Embedding of `Collection._build_class_lookup_for_class`: record the
class under `within + [c.name]` and recurse into nested classes with the
extended `within` path (both computed with `ComponentRef.concatenate` in
the source; here its two-argument body `attachDeepest`). -/
def buildLookupForClass (c : ClassV) (within : Option ComponentRef) : Lookup :=
  match c with
  | .mk nm ty cls =>
    let full : ComponentRef :=
      match within with
      | some w => w.attachDeepest (.mk nm [] [])
      | none => .mk nm [] []
    (full.to_tuple, ClassV.mk nm ty cls) :: buildLookupForClasses cls (some full)

/-- The `for nested_c in c.classes.values()` loop of
`_build_class_lookup_for_class`. -/
def buildLookupForClasses (cls : List ClassV) (within : Option ComponentRef) : Lookup :=
  match cls with
  | [] => []
  | c :: rest => buildLookupForClass c within ++ buildLookupForClasses rest within

end

/-- Embedding of `ast.File`: a `within` path list and the values of the
ordered `classes` map. -/
structure FileV where
  within : List ComponentRef
  classes : List ClassV

/-- Embedding of `Collection._build_class_lookup`: walk every file's
classes, prefixing by the file's first `within` element when present. -/
def buildClassLookup (files : List FileV) : Lookup :=
  match files with
  | [] => []
  | f :: rest => buildLookupForClasses f.classes f.within.head? ++ buildClassLookup rest

/-- Embedding of `ast.Collection`: the file list together with the lazily
built `_class_lookup` cache (`none` until the first `find_class`). -/
structure Collection where
  files : List FileV
  class_lookup : Option Lookup

/-- Embedding of `Collection.extend`: append the other collection's files.
The cached `_class_lookup` is left untouched by the source. -/
def Collection.extend (self other : Collection) : Collection :=
  { files := self.files ++ other.files, class_lookup := self.class_lookup }

/-- The `while c is None` lookup loop of `Collection.find_class`: try the
candidate key `within ++ ref`; on a miss pop one element from the end of
`within` and retry, stopping when `within` is empty. -/
@[simp]
def findClassAux (table : Lookup) (within ref : List String) : Option ClassV :=
  match lookupGet table (within ++ ref) with
  | some c => some c
  | none =>
    if _h : within = [] then none
    else findClassAux table within.dropLast ref
termination_by within.length
decreasing_by
  have hp : 0 < within.length := List.length_pos.mpr _h
  simp only [List.length_dropLast]
  omega

/-- The two failure signals of `Collection.find_class`: the bare
`KeyError` raised for likely elementary type names, and
`ClassNotFoundError` carrying the offending component reference. -/
inductive FindError where
  | keyError
  | classNotFound (ref : ComponentRef)

/-- `within[0].to_tuple() if within else tuple()` from `find_class`. -/
def withinTuple (within : List ComponentRef) : List String :=
  match within with
  | w :: _ => w.to_tuple
  | [] => []

/-- The elementary type names special-cased in the failure branch of
`find_class`. -/
def elementaryNames : List String :=
  ["Real", "Integer", "Boolean", "String", "Modelica", "SI"]

/-- The table `find_class` consults: the cached `_class_lookup` if
already built, else the result of `_build_class_lookup`. -/
def Collection.effectiveLookup (col : Collection) : Lookup :=
  match col.class_lookup with
  | some t => t
  | none => buildClassLookup col.files

/-- Embedding of `Collection.find_class(component_ref, within)` with the
defaulted parameters `check_builtin_classes=False`, `return_ref=False`
(the builtin short-circuit and the returned reference are dead code on
this path).  Builds the lookup cache if absent, runs the candidate loop,
and on failure raises `KeyError` for elementary names and
`ClassNotFoundError` otherwise.  Returns the result together with the
updated collection (cache now built). -/
def Collection.find_class (col : Collection) (component_ref : ComponentRef)
    (within : List ComponentRef) : Except FindError ClassV × Collection :=
  let table : Lookup := col.effectiveLookup
  let col' : Collection := { col with class_lookup := some table }
  match findClassAux table (withinTuple within) component_ref.to_tuple with
  | some c => (.ok c, col')
  | none =>
    if component_ref.name ∈ elementaryNames then (.error .keyError, col')
    else (.error (.classNotFound component_ref), col')

/-! ### Claim C1: the candidate-key search of `find_class` -/

/-- The candidate keys tried by the lookup loop, in order, as the spec
describes them: `within ++ ref` with `k` elements popped from the end of
`within`, for `k = 0, 1, ..., len(within)`. -/
def candidateKeys (within ref : List String) : List (List String) :=
  (List.range (within.length + 1)).map (fun k => within.take (within.length - k) ++ ref)

/-! ### Claim C7: the two failure signals of `find_class` -/

/-! ### Claim C2: `extend` and the class-lookup cache

The source of `Collection.extend` is `self.files.extend(other.files)`:
the cached `_class_lookup` is not cleared.  The concrete run below
evaluates the code on the failing input: after a `find_class` call has
built the cache, a class appended via `extend` is invisible to
`find_class` even though a rebuilt table would contain it. -/

/-! ## Symbolic generator (`src/pymola/backends/casadi/generator.py`)

Symbolic kernel handles (`casadi.MX`) are modeled by a small value type:
a named symbol with a shape, a numeric constant, or a composite
expression.  The generator's mutable tables (`self.derivative`,
`self.nodes[self.current_class]`, `self.model.delayed_states`,
`self.model.inputs`) are threaded explicitly as a state record. -/

/-- Model of a `casadi.MX` handle as used by the generator: `sym` is a
symbolic leaf carrying `name()` and `size()`; `num` a numeric constant
(also covers the plain Python numbers stored in `src` by
`exitPrimary`); `binop` a composite expression. -/
inductive MX where
  | sym (name : String) (rows cols : Nat)
  | num (v : Int)
  | binop (op : String) (a b : MX)
  deriving DecidableEq

/-- `casadi.MX.is_symbolic`: true exactly on symbolic leaves. -/
def MX.is_symbolic : MX → Bool
  | .sym _ _ _ => true
  | _ => false

/-- `casadi.MX.name`; the kernel raises on non-symbolic handles, and the
generator only calls it under an `is_symbolic` guard, so the default
branch is dead code. -/
def MX.name : MX → String
  | .sym n _ _ => n
  | _ => ""

/-- Row count of `casadi.MX.size` (composite shapes follow the left
operand; the generator reads shapes of symbolic leaves only). -/
def MX.rows : MX → Nat
  | .sym _ r _ => r
  | .num _ => 1
  | .binop _ a _ => a.rows

/-- Column count of `casadi.MX.size`. -/
def MX.cols : MX → Nat
  | .sym _ _ c => c
  | .num _ => 1
  | .binop _ a _ => a.cols

/-- Embedding of `model.Variable(symbol)`: only the wrapped symbol is
relevant to the claims below (the remaining attributes keep their
constructor defaults). -/
structure Variable where
  mx : MX
  deriving DecidableEq

/-- Embedding of `model.DelayedState(name, origin, delay_time)`. -/
structure DelayedState where
  name : String
  origin : String
  delay_time : Rat
  deriving DecidableEq

/-- The generator's mutable tables touched by `exitExpression`:
`self.derivative` (dict keyed by the differentiated handle),
`self.nodes[self.current_class]` (entries added for derivative symbols,
keyed by the handle itself), `self.model.delayed_states` and
`self.model.inputs`. -/
structure GenState where
  derivative : List (MX × MX)
  classEnv : List (MX × MX)
  delayed_states : List DelayedState
  inputs : List Variable
  deriving DecidableEq

/-- Python dict membership/indexing `d[k]` on the generator tables. -/
def assocGet (d : List (MX × MX)) (k : MX) : Option MX :=
  (d.find? (fun p => p.1 == k)).map (fun p => p.2)

/-- Embedding of the `op == 'der'` branch of `Generator.exitExpression`:
if the lowered operand already has an entry in `self.derivative` reuse
it, otherwise create `der(<name>)` with the operand's sparsity (shape),
record it in `self.derivative` and in the current class environment. -/
def exitDer (st : GenState) (orig : MX) : MX × GenState :=
  match assocGet st.derivative orig with
  | some s => (s, st)
  | none =>
    let s := MX.sym ("der(" ++ orig.name ++ ")") orig.rows orig.cols
    (s, { st with
      derivative := st.derivative ++ [(orig, s)],
      classEnv := st.classEnv ++ [(s, s)] })

/-- `n` successive occurrences of `der(x)` processed by the tree walker,
threading the generator state. -/
def derOccurrences (st : GenState) (x : MX) : Nat → MX × GenState
  | 0 => (x, st)
  | n + 1 => exitDer (derOccurrences st x n).2 x

/-! ### Claim C6: the `delay` operator -/

/-- Embedding of Python `str(...)` applied to the lowered delay time in
the `'{}_delayed_{}'.format(...)` call (the numeric delay value is
modeled as a rational). -/
def pyStr (q : Rat) : String := toString q

/-- Embedding of the `op == 'delay'` branch of `Generator.exitExpression`
(two operands).  `expr` is the lowered first operand and `delay_time` the
lowered second operand.  A non-symbolic argument raises
`NotImplementedError`; a symbolic leaf produces the `<name>_delayed_<τ>`
input symbol of the same shape, the `DelayedState` record, and the new
`Model.inputs` entry. -/
def exitDelay (st : GenState) (expr : MX) (delay_time : Rat) :
    Except String (MX × GenState) :=
  if expr.is_symbolic then
    let src := MX.sym (expr.name ++ "_delayed_" ++ pyStr delay_time) expr.rows expr.cols
    .ok (src, { st with
      delayed_states := st.delayed_states ++ [⟨src.name, expr.name, delay_time⟩],
      inputs := st.inputs ++ [⟨src⟩] })
  else
    .error "Currently, delay() is only supported with a variable as argument."

/-! ### Claim C5: if-equation lowering (`Generator.exitIfEquation`)

The lowered residuals (`self.get_mx(...)` of the branch equations and of
the conditions) are `MX` values; the emitted selection tree built from
`casadi.vertcat` and `casadi.if_else` is modeled by `CExpr`. -/

/-- The expressions built by `exitIfEquation`: lowered residuals (`mx`),
`casadi.vertcat` of a list of them, and `casadi.if_else` selections. -/
inductive CExpr where
  | mx (m : MX)
  | vertcat (args : List CExpr)
  | if_else (c t e : CExpr)

/-- The loop of `Generator.exitIfEquation` for a given per-branch
equation count `n`: negative Python indices `equations[-(i+1)]` are read
off the reversed list, the initial `src` is the vertcat of the last
branch, and each iteration `cond_index` wraps `src` in
`if_else(conditions[-(cond_index+1)], vertcat(branch), src)`.  The `getD`
default is dead code: `cond_index` always indexes within
`conditions.reverse`. -/
def ifEqLoop (conditions equations : List MX) (n : Nat) : CExpr :=
  (List.range conditions.length).foldl
    (fun src cond_index =>
      CExpr.if_else (.mx (conditions.reverse.getD cond_index (MX.num 0)))
        (.vertcat (((equations.reverse.drop (n * (cond_index + 1))).take n).map CExpr.mx))
        src)
    (.vertcat ((equations.reverse.take n).map CExpr.mx))

/-- Embedding of `Generator.exitIfEquation`: the `assert` that
`len(equations)` is an exact multiple of `len(conditions) + 1` is modeled
as `none` on failure; otherwise run the selection loop with
`n = len(equations) // (len(conditions) + 1)`. -/
def exitIfEquation (conditions equations : List MX) : Option CExpr :=
  if equations.length % (conditions.length + 1) = 0 then
    some (ifEqLoop conditions equations (equations.length / (conditions.length + 1)))
  else none

/-- Branch `j` (0-based, in source order) of an if-equation with `n`
equations per branch, as the spec describes it; the loop vertcats each
branch's residuals in reverse order. -/
def specBranch (equations : List MX) (n j : Nat) : CExpr :=
  .vertcat ((((equations.drop (n * j)).take n).reverse).map CExpr.mx)

/-- The right-associated fold of `if_else` over the conditions, pairing
condition `j` with branch `j` and defaulting to the final else-branch. -/
def specSelect (equations : List MX) (n : Nat) : List MX → Nat → CExpr
  | [], j => specBranch equations n j
  | c :: cs, j => .if_else (.mx c) (specBranch equations n j)
      (specSelect equations n cs (j + 1))

/-- The per-branch residual counts of an emitted selection tree, in
branch order. -/
def branchSizes : CExpr → List Nat
  | .mx _ => []
  | .vertcat l => [l.length]
  | .if_else _ t e => branchSizes t ++ branchSizes e

/-! ### Claim C10: symbol partitioning in `Generator.exitClass`

`exitClass` (non-function classes) sorts `tree.symbols.values()` by the
`order` attribute and partitions them by prefix, then splits the states
by membership of their `MX` symbol in `self.derivative`.  The
materialization `self.get_mx(s)` is passed as a function parameter. -/

/-- Embedding of `ast.Symbol` restricted to the fields `exitClass`
reads: `name`, `prefixes` and `order`. -/
structure SymV where
  name : String
  prefixes : List String
  order : Nat
  deriving DecidableEq

/-- The sort key relation of `sorted(..., key=lambda x: x.order)`. -/
def symOrderRel : SymV → SymV → Prop := fun a b => a.order ≤ b.order

instance : DecidableRel symOrderRel := fun a b => Nat.decLe a.order b.order

instance : IsTotal SymV symOrderRel := ⟨fun a b => Nat.le_total a.order b.order⟩

instance : IsTrans SymV symOrderRel := ⟨fun _ _ _ => Nat.le_trans⟩

/-- Embedding of `sorted(tree.symbols.values(), key=lambda x: x.order)`:
Python's sort is stable and ascending on the key, modeled by insertion
sort on `symOrderRel`. -/
def sortedSymbols (syms : List SymV) : List SymV :=
  List.insertionSort symOrderRel syms

/-- The result lists built by `exitClass`. -/
structure Partition where
  states : List SymV
  inputs : List SymV
  constants : List SymV
  parameters : List SymV
  ode_states : List SymV
  alg_states : List SymV
  deriving DecidableEq

/-- The `for s in symbols` prefix loop of `exitClass`, appending each
symbol to exactly one of `(states, inputs, constants, parameters)`:
`constant` first, then `parameter`, then `input`, else a state. -/
def partitionPrefixLoop (syms : List SymV) :
    List SymV × List SymV × List SymV × List SymV :=
  syms.foldl
    (fun acc s =>
      if "constant" ∈ s.prefixes then (acc.1, acc.2.1, acc.2.2.1 ++ [s], acc.2.2.2)
      else if "parameter" ∈ s.prefixes then (acc.1, acc.2.1, acc.2.2.1, acc.2.2.2 ++ [s])
      else if "input" ∈ s.prefixes then (acc.1, acc.2.1 ++ [s], acc.2.2.1, acc.2.2.2)
      else (acc.1 ++ [s], acc.2.1, acc.2.2.1, acc.2.2.2))
    ([], [], [], [])

/-- The `for s in states` derivative loop of `exitClass`: a state is an
ODE state exactly when `self.get_mx(s) in self.derivative`. -/
def partitionDerLoop (states : List SymV) (getMx : SymV → MX)
    (deriv : List (MX × MX)) : List SymV × List SymV :=
  states.foldl
    (fun acc s =>
      if (assocGet deriv (getMx s)).isSome then (acc.1 ++ [s], acc.2)
      else (acc.1, acc.2 ++ [s]))
    ([], [])

/-- Embedding of the symbol partitioning in `Generator.exitClass` for a
non-function class: sort by `order`, run the prefix loop, then split the
states on derivative-table membership. -/
def exitClassPartition (syms : List SymV) (getMx : SymV → MX)
    (deriv : List (MX × MX)) : Partition :=
  let sorted := sortedSymbols syms
  let p := partitionPrefixLoop sorted
  let d := partitionDerLoop p.1 getMx deriv
  { states := p.1, inputs := p.2.1, constants := p.2.2.1, parameters := p.2.2.2,
    ode_states := d.1, alg_states := d.2 }

/-- A symbol the loop sends to `constants`. -/
def isConstantSym (s : SymV) : Bool := decide ("constant" ∈ s.prefixes)

/-- A symbol the loop sends to `parameters`: `parameter` prefix without
the overriding `constant` prefix. -/
def isParameterSym (s : SymV) : Bool :=
  !decide ("constant" ∈ s.prefixes) && decide ("parameter" ∈ s.prefixes)

/-- A symbol the loop sends to `inputs`: `input` prefix without the
overriding `constant` or `parameter` prefixes. -/
def isInputSym (s : SymV) : Bool :=
  !decide ("constant" ∈ s.prefixes) && !decide ("parameter" ∈ s.prefixes) &&
    decide ("input" ∈ s.prefixes)

/-- A symbol the loop sends to `states`: none of the three prefixes. -/
def isStateSym (s : SymV) : Bool :=
  !decide ("constant" ∈ s.prefixes) && !decide ("parameter" ∈ s.prefixes) &&
    !decide ("input" ∈ s.prefixes)

/-! ## Node construction (`src/pymola/ast.py`, `Node.set_args`)

`Node.__init__(**kwargs)` calls `set_args`, which iterates the keyword
arguments in order: a key that is not in `self.__dict__` raises
`KeyError('{:s} not valid arg'.format(key))` before any assignment for
that key; a known key overwrites the field.  The field dictionary is an
association list from field names to opaque values. -/

/-- Python dict assignment `self.__dict__[key] = value` for a key known
to be present: overwrite the entry, keeping the key set unchanged. -/
def dictUpdate {α : Type} (d : List (String × α)) (k : String) (v : α) :
    List (String × α) :=
  d.map (fun p => if p.1 = k then (k, v) else p)

/-- Embedding of `Node.set_args(**kwargs)`. -/
def set_args {α : Type} (d : List (String × α)) :
    List (String × α) → Except String (List (String × α))
  | [] => .ok d
  | (k, v) :: rest =>
    if (d.map Prod.fst).contains k then set_args (dictUpdate d k v) rest
    else .error (k ++ " not valid arg")

/-! ## Theorems -/

theorem splitDotChars_ne_nil (l : List Char) : splitDotChars l ≠ [] := by
  match l with
  | [] => simp [splitDotChars]
  | c :: cs =>
    rw [splitDotChars]
    by_cases h : c = '.'
    · simp [h]
    · simp only [h, if_false]
      match hm : splitDotChars cs with
      | [] => simp
      | h' :: t => simp

theorem joinDotChars_splitDotChars (l : List Char) :
    joinDotChars (splitDotChars l) = l := by
  induction l with
  | nil => rfl
  | cons c cs ih =>
    rw [splitDotChars]
    by_cases h : c = '.'
    · subst h
      simp only [if_pos rfl]
      match hm : splitDotChars cs with
      | [] => exact absurd hm (splitDotChars_ne_nil cs)
      | h' :: t =>
        rw [hm] at ih
        show ([] : List Char) ++ '.' :: joinDotChars (h' :: t) = '.' :: cs
        rw [List.nil_append, ih]
    · simp only [h, if_false]
      match hm : splitDotChars cs with
      | [] => exact absurd hm (splitDotChars_ne_nil cs)
      | h' :: t =>
        rw [hm] at ih
        match t with
        | [] =>
          show c :: h' = c :: cs
          rw [show joinDotChars [h'] = h' from rfl] at ih
          rw [ih]
        | t0 :: ts =>
          show (c :: h') ++ '.' :: joinDotChars (t0 :: ts) = c :: cs
          rw [show joinDotChars (h' :: t0 :: ts) = h' ++ '.' :: joinDotChars (t0 :: ts) from rfl]
            at ih
          rw [List.cons_append, ih]

theorem pySplitDot_ne_nil (s : String) : pySplitDot s ≠ [] := by
  intro h
  exact splitDotChars_ne_nil s.data (by simpa [pySplitDot] using h)

theorem pyJoinDot_pySplitDot (s : String) : pyJoinDot (pySplitDot s) = s := by
  unfold pyJoinDot pySplitDot
  rw [List.map_map]
  have h1 : (String.data ∘ fun l => String.mk l) = id := rfl
  rw [h1, List.map_id, joinDotChars_splitDotChars]

theorem ComponentRef.to_tuple_fromTupleCore (n : String) (rest : List String) :
    (ComponentRef.fromTupleCore n rest).to_tuple = n :: rest := by
  induction rest generalizing n with
  | nil => rfl
  | cons m rest ih =>
    rw [ComponentRef.fromTupleCore, ComponentRef.to_tuple, ih]

theorem ComponentRef.to_tuple_attachDeepest (a b : ComponentRef) :
    (a.attachDeepest b).to_tuple = a.to_tuple ++ b.to_tuple := by
  match a with
  | .mk n idx [] => rfl
  | .mk n idx (c :: cs) =>
    rw [ComponentRef.attachDeepest, ComponentRef.to_tuple, ComponentRef.to_tuple,
      ComponentRef.to_tuple_attachDeepest c b, List.cons_append]

/-- Claim C3: for every string `s`, `from_string(s)` followed by
conversion back to a string recovers `s`, and for every non-empty tuple
of names `t`, `from_tuple(t).to_tuple() = t`. -/
theorem componentRef_round_trip (s : String) (t : List String) (ht : t ≠ []) :
    (ComponentRef.from_string s).map ComponentRef.to_string = some s ∧
    (ComponentRef.from_tuple t).map ComponentRef.to_tuple = some t := by
  constructor
  · rw [ComponentRef.from_string]
    match hs : pySplitDot s with
    | [] => exact absurd hs (pySplitDot_ne_nil s)
    | n :: rest =>
      simp only [Option.map_some']
      rw [ComponentRef.to_string, ComponentRef.to_tuple_fromTupleCore, ← hs,
        pyJoinDot_pySplitDot]
  · match t with
    | [] => exact absurd rfl ht
    | n :: rest =>
      rw [ComponentRef.from_tuple]
      simp only [Option.map_some']
      rw [ComponentRef.to_tuple_fromTupleCore]

/-- Witness for C3 at `s = "a.b.c"` and `t = ["x", "y"]`. -/
theorem componentRef_round_trip_witness :
    (ComponentRef.from_string "a.b.c").map ComponentRef.to_string = some "a.b.c" ∧
    (ComponentRef.from_tuple ["x", "y"]).map ComponentRef.to_tuple = some ["x", "y"] :=
  componentRef_round_trip "a.b.c" ["x", "y"] (by decide)

/-- Claim C9: concatenating component references `a1 :: rest` yields a
single path whose flattened tuple of names is the concatenation of the
inputs' tuples; the inputs are values in this embedding, hence unmodified. -/
theorem componentRef_concatenate_to_tuple (a : ComponentRef) (rest : List ComponentRef) :
    (ComponentRef.concatenate (a :: rest)).map ComponentRef.to_tuple =
      some (((a :: rest).map ComponentRef.to_tuple).flatten) := by
  rw [ComponentRef.concatenate]
  simp only [Option.map_some', Option.some.injEq]
  induction rest generalizing a with
  | nil => simp
  | cons b rest ih =>
    rw [List.foldl_cons, ih (a.attachDeepest b)]
    simp [ComponentRef.to_tuple_attachDeepest]

theorem candidateKeys_nil (ref : List String) : candidateKeys [] ref = [ref] := by
  simp [candidateKeys]

theorem candidateKeys_cons (within ref : List String) (h : within ≠ []) :
    candidateKeys within ref = (within ++ ref) :: candidateKeys within.dropLast ref := by
  obtain ⟨m, hl⟩ : ∃ m, within.length = m + 1 := by
    cases hw : within.length with
    | zero => exact absurd (List.length_eq_zero.mp hw) h
    | succ m => exact ⟨m, rfl⟩
  unfold candidateKeys
  rw [hl, List.range_succ_eq_map, List.map_cons, Nat.sub_zero, ← hl,
    List.take_length, List.map_map, List.length_dropLast, hl, Nat.add_sub_cancel]
  congr 1
  apply List.map_congr_left
  intro k hk
  rw [List.mem_range] at hk
  have h1 : within.dropLast.take (m - k) = within.take (m - k) := by
    rw [List.dropLast_eq_take, hl, Nat.add_sub_cancel, List.take_take,
      Nat.min_def, if_pos (by omega)]
  rw [Function.comp_apply, h1, Nat.succ_sub_succ]

/-- Claim C1: `find_class`'s lookup loop returns the value of the first
candidate key present in the flat table, trying `within ++ ref` first and
popping one element from the end of `within` per retry; it fails exactly
when every candidate (the last being `ref` alone, with `within`
exhausted) misses. -/
theorem find_class_candidate_search (table : Lookup) (within ref : List String) :
    findClassAux table within ref =
      (candidateKeys within ref).findSome? (lookupGet table) := by
  by_cases h : within = []
  · subst h
    rw [findClassAux, candidateKeys_nil, List.findSome?, List.nil_append]
    cases lookupGet table ref with
    | some c => rfl
    | none => rfl
  · rw [findClassAux, candidateKeys_cons within ref h, List.findSome?]
    cases lookupGet table (within ++ ref) with
    | some c => rfl
    | none =>
      simp only [dif_neg h]
      exact find_class_candidate_search table within.dropLast ref
termination_by within.length
decreasing_by
  have hp : 0 < within.length := List.length_pos.mpr h
  simp only [List.length_dropLast]
  omega

/-- Claim C7: when the candidate search exhausts the scope chain,
`find_class` signals the elementary-type miss (the bare `KeyError`)
exactly for the names `Real`, `Integer`, `Boolean`, `String`, `Modelica`,
`SI`, and for every other name raises `ClassNotFoundError` carrying the
offending component reference; the two signals are distinct. -/
theorem find_class_failure_signals (col : Collection) (component_ref : ComponentRef)
    (within : List ComponentRef)
    (h : findClassAux col.effectiveLookup (withinTuple within) component_ref.to_tuple = none) :
    ((col.find_class component_ref within).1 = .error .keyError ↔
      component_ref.name ∈ elementaryNames) ∧
    (component_ref.name ∉ elementaryNames →
      (col.find_class component_ref within).1 = .error (.classNotFound component_ref)) ∧
    (∀ r : ComponentRef, (FindError.keyError : FindError) ≠ .classNotFound r) := by
  refine ⟨?_, ?_, fun r hr => by cases hr⟩
  · rw [Collection.find_class]
    simp only [h]
    by_cases hm : component_ref.name ∈ elementaryNames
    · simp [hm]
    · simp [hm]
  · intro hm
    rw [Collection.find_class]
    simp only [h]
    simp [hm]

/-- Witness for C7: in an empty collection, looking up `Real` signals the
elementary-type miss while looking up `Foo` raises `ClassNotFoundError`
carrying the reference. -/
theorem find_class_failure_signals_witness :
    ((Collection.mk [] none).find_class (.mk "Real" [] []) []).1 = .error .keyError ∧
    ((Collection.mk [] none).find_class (.mk "Foo" [] []) []).1 =
      .error (.classNotFound (.mk "Foo" [] [])) := by
  have h1 : findClassAux (Collection.mk [] none).effectiveLookup (withinTuple [])
      (ComponentRef.mk "Real" [] []).to_tuple = none := by
    rw [findClassAux]
    rfl
  have h2 : findClassAux (Collection.mk [] none).effectiveLookup (withinTuple [])
      (ComponentRef.mk "Foo" [] []).to_tuple = none := by
    rw [findClassAux]
    rfl
  constructor
  · exact (find_class_failure_signals (Collection.mk [] none) (.mk "Real" [] []) [] h1).1.mpr
      (by decide)
  · exact (find_class_failure_signals (Collection.mk [] none) (.mk "Foo" [] []) [] h2).2.1
      (by decide)

/-- Claim C2 (code bug): after `find_class` builds the cache, appending a
file defining class `B` via `extend` does not invalidate the cache, so
`find_class` fails to resolve `B` — although rebuilding the flat mapping
from the extended file list does contain `B`.  This contradicts the
specified invalidation of the cache on append. -/
theorem extend_keeps_stale_cache :
    ((((Collection.mk [FileV.mk [] [ClassV.mk "A" "model" []]] none).find_class
          (.mk "A" [] []) []).2.extend
        (Collection.mk [FileV.mk [] [ClassV.mk "B" "model" []]] none)).find_class
          (.mk "B" [] []) []).1 = .error (.classNotFound (.mk "B" [] [])) ∧
    lookupGet
      (buildClassLookup ((((Collection.mk [FileV.mk [] [ClassV.mk "A" "model" []]] none).find_class
          (.mk "A" [] []) []).2.extend
        (Collection.mk [FileV.mk [] [ClassV.mk "B" "model" []]] none)).files))
      ["B"] = some (ClassV.mk "B" "model" []) := by
  constructor
  · simp [Collection.find_class, Collection.effectiveLookup, Collection.extend,
      buildClassLookup, buildLookupForClasses, buildLookupForClass, withinTuple,
      ComponentRef.to_tuple, ComponentRef.name, ComponentRef.attachDeepest,
      lookupGet, elementaryNames]
  · simp [Collection.find_class, Collection.effectiveLookup, Collection.extend,
      buildClassLookup, buildLookupForClasses, buildLookupForClass, withinTuple,
      ComponentRef.to_tuple, ComponentRef.name, ComponentRef.attachDeepest,
      lookupGet, elementaryNames]

theorem assocGet_append_self (d : List (MX × MX)) (k v : MX)
    (h : assocGet d k = none) : assocGet (d ++ [(k, v)]) k = some v := by
  unfold assocGet at h ⊢
  have hf : List.find? (fun p => p.1 == k) d = none := by
    match hf : List.find? (fun p => p.1 == k) d with
    | some p => rw [hf] at h; simp at h
    | none => exact hf
  rw [List.find?_append, hf]
  simp [List.find?]

theorem exitDer_of_some (st : GenState) (x s : MX)
    (hg : assocGet st.derivative x = some s) : exitDer st x = (s, st) := by
  rw [exitDer, hg]

theorem exitDer_of_none (st : GenState) (x : MX)
    (hg : assocGet st.derivative x = none) :
    exitDer st x = (MX.sym ("der(" ++ x.name ++ ")") x.rows x.cols,
      { st with
        derivative := st.derivative ++
          [(x, MX.sym ("der(" ++ x.name ++ ")") x.rows x.cols)],
        classEnv := st.classEnv ++
          [(MX.sym ("der(" ++ x.name ++ ")") x.rows x.cols,
            MX.sym ("der(" ++ x.name ++ ")") x.rows x.cols)] }) := by
  rw [exitDer, hg]

theorem exitDer_stable (st : GenState) (x : MX) :
    exitDer (exitDer st x).2 x = exitDer st x := by
  match hg : assocGet st.derivative x with
  | some s =>
    rw [exitDer_of_some st x s hg]
    exact exitDer_of_some st x s hg
  | none =>
    rw [exitDer_of_none st x hg, exitDer]
    dsimp only
    rw [assocGet_append_self st.derivative x _ hg]

theorem derOccurrences_one (st : GenState) (x : MX) :
    derOccurrences st x 1 = exitDer st x := rfl

/-- Claim C4: however many `der(x)` occurrences are processed, the
derivative symbol for `x` is introduced at most once: all occurrences
after the first return the same symbol and leave the tables unchanged;
a pre-existing table entry is reused verbatim; and a fresh entry is the
symbol `der(<name of x>)` with the shape of `x`, recorded in the
derivative table. -/
theorem derivative_symbol_unique (st : GenState) (x : MX) (n : Nat) (hn : 1 ≤ n) :
    derOccurrences st x n = derOccurrences st x 1 ∧
    assocGet (exitDer st x).2.derivative x = some (exitDer st x).1 ∧
    (∀ s, assocGet st.derivative x = some s → exitDer st x = (s, st)) ∧
    (assocGet st.derivative x = none →
      (exitDer st x).1 = MX.sym ("der(" ++ x.name ++ ")") x.rows x.cols) := by
  refine ⟨?_, ?_, ?_, ?_⟩
  · induction n with
    | zero => exact absurd hn (by decide)
    | succ m ih =>
      match m with
      | 0 => rfl
      | m' + 1 =>
        rw [derOccurrences, ih (by omega), derOccurrences_one]
        exact exitDer_stable st x
  · match hg : assocGet st.derivative x with
    | some s =>
      rw [exitDer_of_some st x s hg]
      exact hg
    | none =>
      rw [exitDer_of_none st x hg]
      dsimp only
      exact assocGet_append_self st.derivative x _ hg
  · intro s hs
    exact exitDer_of_some st x s hs
  · intro hg
    rw [exitDer_of_none st x hg]

/-- Witness for C4 at the empty state and `x` a scalar symbol, with three
occurrences of `der(x)`. -/
theorem derivative_symbol_unique_witness :
    derOccurrences ⟨[], [], [], []⟩ (MX.sym "x" 1 1) 3 =
      derOccurrences ⟨[], [], [], []⟩ (MX.sym "x" 1 1) 1 ∧
    (exitDer ⟨[], [], [], []⟩ (MX.sym "x" 1 1)).1 = MX.sym "der(x)" 1 1 := by
  have h := derivative_symbol_unique ⟨[], [], [], []⟩ (MX.sym "x" 1 1) 3 (by decide)
  refine ⟨h.1, ?_⟩
  have h4 := h.2.2.2 rfl
  simpa [MX.name, MX.rows, MX.cols] using h4

/-- Claim C6: lowering `delay(x, tau)` with a symbolic leaf `x` creates a
new input symbol named `<x>_delayed_<tau>` of the same shape as `x`,
appends a `DelayedState` with that name, `x`'s name and `tau`, and
registers the symbol in `Model.inputs`; a non-leaf argument raises
`NotImplementedError`. -/
theorem delay_lowering (st : GenState) (expr : MX) (tau : Rat) :
    (expr.is_symbolic = false → exitDelay st expr tau =
      .error "Currently, delay() is only supported with a variable as argument.") ∧
    (∀ nm r c, expr = MX.sym nm r c →
      exitDelay st expr tau =
        .ok (MX.sym (nm ++ "_delayed_" ++ pyStr tau) r c,
          { st with
            delayed_states := st.delayed_states ++
              [⟨nm ++ "_delayed_" ++ pyStr tau, nm, tau⟩],
            inputs := st.inputs ++ [⟨MX.sym (nm ++ "_delayed_" ++ pyStr tau) r c⟩] })) := by
  constructor
  · intro h
    rw [exitDelay, h]
    rfl
  · intro nm r c h
    subst h
    rw [exitDelay]
    rfl

/-- Witness for C6: a non-symbolic argument is rejected; a scalar input
symbol `u` delayed by `1/2` produces the new input and delayed-state
record. -/
theorem delay_lowering_witness :
    exitDelay ⟨[], [], [], []⟩ (MX.num 3) (1/2) =
      .error "Currently, delay() is only supported with a variable as argument." ∧
    exitDelay ⟨[], [], [], []⟩ (MX.sym "u" 1 1) (1/2) =
      .ok (MX.sym ("u" ++ "_delayed_" ++ pyStr (1/2)) 1 1,
        ⟨[], [], [⟨"u" ++ "_delayed_" ++ pyStr (1/2), "u", 1/2⟩],
          [⟨MX.sym ("u" ++ "_delayed_" ++ pyStr (1/2)) 1 1⟩]⟩) :=
  ⟨(delay_lowering ⟨[], [], [], []⟩ (MX.num 3) (1/2)).1 rfl,
   (delay_lowering ⟨[], [], [], []⟩ (MX.sym "u" 1 1) (1/2)).2 "u" 1 1 rfl⟩

theorem specSelect_shift (equations : List MX) (n : Nat) (cs : List MX) (j : Nat) :
    specSelect equations n cs (j + 1) = specSelect (equations.drop n) n cs j := by
  induction cs generalizing j with
  | nil =>
    rw [specSelect, specSelect, specBranch, specBranch, List.drop_drop]
    have ha : n * (j + 1) = n + n * j := by ring
    rw [ha]
  | cons c cs ih =>
    rw [specSelect, specSelect, ih, specBranch, specBranch, List.drop_drop]
    have ha : n * (j + 1) = n + n * j := by ring
    rw [ha]

theorem ifEqLoop_spec (conditions equations : List MX) (n : Nat)
    (h : equations.length = n * (conditions.length + 1)) :
    ifEqLoop conditions equations n = specSelect equations n conditions 0 := by
  induction conditions generalizing equations with
  | nil =>
    have hn : equations.length = n := by simpa using h
    rw [ifEqLoop, specSelect, specBranch]
    simp only [List.length_nil, List.range_zero, List.foldl_nil, Nat.mul_zero, List.drop_zero]
    rw [List.take_of_length_le (by rw [List.length_reverse, hn]),
      List.take_of_length_le (by rw [hn])]
  | cons c cs ih =>
    have hlen : equations.length = n * cs.length + n + n := by
      rw [h]; simp only [List.length_cons]; ring
    have hmul : ∀ a b : Nat, a ≤ b → n * a ≤ n * b := fun a b hab =>
      Nat.mul_le_mul_left n hab
    rw [ifEqLoop]
    simp only [List.length_cons, List.range_succ, List.foldl_append, List.foldl_cons,
      List.foldl_nil]
    have hcl : (c :: cs).reverse.getD cs.length (MX.num 0) = c := by
      rw [List.reverse_cons, List.getD_append_right cs.reverse [c] (MX.num 0) cs.length
        (by rw [List.length_reverse])]
      simp
    have hbr0 : (equations.reverse.drop (n * (cs.length + 1))).take n =
        (equations.take n).reverse := by
      rw [List.drop_reverse]
      have he : equations.length - n * (cs.length + 1) = n := by
        have h1 : n * (cs.length + 1) = n * cs.length + n := rfl
        omega
      rw [he]
      exact List.take_of_length_le (by rw [List.length_reverse, List.length_take]; omega)
    have herev : (equations.drop n).reverse = equations.reverse.take (n * cs.length + n) := by
      rw [List.reverse_drop]
      congr 1
      omega
    have hinit : (equations.drop n).reverse.take n = equations.reverse.take n := by
      rw [herev, List.take_take, Nat.min_eq_left (by omega)]
    have hinner : (List.range cs.length).foldl
        (fun src cond_index =>
          CExpr.if_else (.mx ((c :: cs).reverse.getD cond_index (MX.num 0)))
            (.vertcat (((equations.reverse.drop (n * (cond_index + 1))).take n).map CExpr.mx))
            src)
        (.vertcat ((equations.reverse.take n).map CExpr.mx)) =
        ifEqLoop cs (equations.drop n) n := by
      rw [ifEqLoop]
      rw [hinit.symm]
      apply List.foldl_ext
      intro src cond_index hmem
      rw [List.mem_range] at hmem
      have hc : (c :: cs).reverse.getD cond_index (MX.num 0) =
          cs.reverse.getD cond_index (MX.num 0) := by
        rw [List.reverse_cons, List.getD_append cs.reverse [c] (MX.num 0) cond_index
          (by rw [List.length_reverse]; omega)]
      have hb : (equations.reverse.drop (n * (cond_index + 1))).take n =
          ((equations.drop n).reverse.drop (n * (cond_index + 1))).take n := by
        rw [herev, List.drop_take, List.take_take, Nat.min_eq_left]
        have h2 : n * (cond_index + 1) ≤ n * cs.length := hmul _ _ (by omega)
        have h3 : n * (cond_index + 1) = n * cond_index + n := rfl
        omega
      rw [hc, hb]
    rw [hcl, hbr0, hinner, ih (equations.drop n) (by
      rw [List.length_drop]
      have h1 : n * (cs.length + 1) = n * cs.length + n := rfl
      omega)]
    rw [show specSelect (equations.drop n) n cs 0 = specSelect equations n cs 1 from
      (specSelect_shift equations n cs 0).symm]
    rw [specSelect, specBranch, Nat.mul_zero, List.drop_zero]

theorem branchSizes_specSelect (equations : List MX) (n : Nat) (cs : List MX) (j : Nat)
    (hle : n * (j + cs.length + 1) ≤ equations.length) :
    branchSizes (specSelect equations n cs j) = List.replicate (cs.length + 1) n := by
  induction cs generalizing j with
  | nil =>
    rw [specSelect, specBranch, branchSizes]
    rw [List.length_map, List.length_reverse, List.length_take, List.length_drop]
    simp only [List.length_nil] at hle ⊢
    have h1 : n * (j + 1) = n * j + n := rfl
    have h2 : n * (j + 0 + 1) = n * (j + 1) := by ring
    rw [List.replicate_one, Nat.min_eq_left (by omega)]
  | cons c cs ih =>
    rw [specSelect, branchSizes, specBranch, branchSizes]
    simp only [List.length_cons] at hle
    have hmono : n * (j + 1) ≤ n * (j + (cs.length + 1) + 1) :=
      Nat.mul_le_mul_left n (by omega)
    have h1 : n * (j + 1) = n * j + n := rfl
    rw [List.length_map, List.length_reverse, List.length_take, List.length_drop,
      Nat.min_eq_left (by omega), ih (j + 1) (by
        have h2 : n * (j + 1 + cs.length + 1) = n * (j + (cs.length + 1) + 1) := by ring
        omega)]
    rw [List.length_cons, List.replicate_succ]
    rfl

/-- Claim C5: for an `IfEquation` whose `equations` list splits into
`len(conditions) + 1` branches of `n` equations each, `exitIfEquation`
succeeds and emits the right-associated fold of `if_else` over the
conditions (condition `j` selecting branch `j`, the last branch as the
default), and every branch of the emitted selection carries exactly `n`
residual expressions. -/
theorem if_equation_lowering (conditions equations : List MX) (n : Nat)
    (h : equations.length = n * (conditions.length + 1)) :
    exitIfEquation conditions equations = some (specSelect equations n conditions 0) ∧
    branchSizes (specSelect equations n conditions 0) =
      List.replicate (conditions.length + 1) n := by
  constructor
  · rw [exitIfEquation]
    have hmod : equations.length % (conditions.length + 1) = 0 := by
      rw [h]; exact Nat.mul_mod_left n (conditions.length + 1)
    have hdiv : equations.length / (conditions.length + 1) = n := by
      rw [h]; exact Nat.mul_div_cancel n (Nat.succ_pos conditions.length)
    rw [if_pos hmod, hdiv, ifEqLoop_spec conditions equations n h]
  · refine branchSizes_specSelect equations n conditions 0 ?_
    have h0 : n * (0 + conditions.length + 1) = n * (conditions.length + 1) := by
      rw [Nat.zero_add]
    omega

/-- Witness for C5: one condition, two single-equation branches
(`k = 1`, `n = 1`). -/
theorem if_equation_lowering_witness :
    exitIfEquation [MX.sym "c" 1 1] [MX.num 1, MX.num 2] =
      some (specSelect [MX.num 1, MX.num 2] 1 [MX.sym "c" 1 1] 0) ∧
    branchSizes (specSelect [MX.num 1, MX.num 2] 1 [MX.sym "c" 1 1] 0) =
      List.replicate 2 1 :=
  if_equation_lowering [MX.sym "c" 1 1] [MX.num 1, MX.num 2] 1 (by decide)

theorem partitionPrefixLoop_go (l : List SymV) (a b c d : List SymV) :
    l.foldl
      (fun acc s =>
        if "constant" ∈ s.prefixes then (acc.1, acc.2.1, acc.2.2.1 ++ [s], acc.2.2.2)
        else if "parameter" ∈ s.prefixes then (acc.1, acc.2.1, acc.2.2.1, acc.2.2.2 ++ [s])
        else if "input" ∈ s.prefixes then (acc.1, acc.2.1 ++ [s], acc.2.2.1, acc.2.2.2)
        else (acc.1 ++ [s], acc.2.1, acc.2.2.1, acc.2.2.2))
      (a, b, c, d) =
    (a ++ l.filter isStateSym, b ++ l.filter isInputSym,
      c ++ l.filter isConstantSym, d ++ l.filter isParameterSym) := by
  induction l generalizing a b c d with
  | nil => simp
  | cons s l ih =>
    rw [List.foldl_cons]
    by_cases h1 : "constant" ∈ s.prefixes
    · rw [if_pos h1, ih]
      simp [List.filter_cons, isConstantSym, isParameterSym, isInputSym, isStateSym, h1]
    · rw [if_neg h1]
      by_cases h2 : "parameter" ∈ s.prefixes
      · rw [if_pos h2, ih]
        simp [List.filter_cons, isConstantSym, isParameterSym, isInputSym, isStateSym, h1, h2]
      · rw [if_neg h2]
        by_cases h3 : "input" ∈ s.prefixes
        · rw [if_pos h3, ih]
          simp [List.filter_cons, isConstantSym, isParameterSym, isInputSym, isStateSym,
            h1, h2, h3]
        · rw [if_neg h3, ih]
          simp [List.filter_cons, isConstantSym, isParameterSym, isInputSym, isStateSym,
            h1, h2, h3]

theorem partitionDerLoop_go (l : List SymV) (getMx : SymV → MX)
    (deriv : List (MX × MX)) (a b : List SymV) :
    l.foldl
      (fun acc s =>
        if (assocGet deriv (getMx s)).isSome then (acc.1 ++ [s], acc.2)
        else (acc.1, acc.2 ++ [s]))
      (a, b) =
    (a ++ l.filter (fun s => (assocGet deriv (getMx s)).isSome),
      b ++ l.filter (fun s => !(assocGet deriv (getMx s)).isSome)) := by
  induction l generalizing a b with
  | nil => simp
  | cons s l ih =>
    rw [List.foldl_cons]
    by_cases h1 : (assocGet deriv (getMx s)).isSome
    · have hne : ¬ assocGet deriv (getMx s) = none := by
        intro hn
        rw [hn] at h1
        simp at h1
      rw [if_pos h1, ih]
      simp [List.filter_cons, h1, hne]
    · have heq : assocGet deriv (getMx s) = none := by
        cases hq : assocGet deriv (getMx s) with
        | none => rfl
        | some v => rw [hq] at h1; simp at h1
      rw [if_neg h1, ih]
      simp [List.filter_cons, h1, heq]

/-- Claim C10: on class exit (non-function class) the symbols are
processed in ascending `order`, and partitioned with prefix precedence
`constant` over `parameter` over `input`; a symbol with none of the three
prefixes becomes a state, and a state is an ODE state exactly when its
symbol has an entry in the derivative table, otherwise an algebraic
state. -/
theorem class_exit_partition (syms : List SymV) (getMx : SymV → MX)
    (deriv : List (MX × MX)) :
    exitClassPartition syms getMx deriv =
      { states := (sortedSymbols syms).filter isStateSym,
        inputs := (sortedSymbols syms).filter isInputSym,
        constants := (sortedSymbols syms).filter isConstantSym,
        parameters := (sortedSymbols syms).filter isParameterSym,
        ode_states := ((sortedSymbols syms).filter isStateSym).filter
          (fun s => (assocGet deriv (getMx s)).isSome),
        alg_states := ((sortedSymbols syms).filter isStateSym).filter
          (fun s => !(assocGet deriv (getMx s)).isSome) } ∧
    (sortedSymbols syms).Sorted symOrderRel := by
  constructor
  · rw [exitClassPartition, partitionPrefixLoop, partitionDerLoop,
      partitionPrefixLoop_go (sortedSymbols syms) [] [] [] []]
    simp only [List.nil_append]
    rw [partitionDerLoop_go ((sortedSymbols syms).filter isStateSym) getMx deriv [] []]
    simp only [List.nil_append]
  · exact List.sorted_insertionSort symOrderRel syms

theorem dictUpdate_keys {α : Type} (d : List (String × α)) (k : String) (v : α) :
    (dictUpdate d k v).map Prod.fst = d.map Prod.fst := by
  unfold dictUpdate
  rw [List.map_map]
  apply List.map_congr_left
  intro p hp
  by_cases h : p.1 = k
  · simp [h]
  · simp [h]

/-- Claim C8, counterexample to the quoted message: rejecting the unknown
key `foo` on a node whose only field is `value` (the `Primary` node kind)
produces the message `foo not valid arg`, which does not contain the
specified text `not a valid field`. -/
theorem set_args_message_counterexample :
    set_args [("value", ())] [("foo", ())] = .error "foo not valid arg" ∧
    ¬ ("not a valid field".data <:+: "foo not valid arg".data) := by
  constructor
  · rfl
  · decide

/-- Claim C8 as amended: a keyword argument whose name is not an existing
field (all arguments before it naming existing fields) makes construction
fail with the user-visible error `<key> not valid arg` naming the
rejected key, whatever value it carries and whatever arguments follow —
in particular the rejected argument modifies no field, since no updated
field dictionary is returned. -/
theorem set_args_rejects_unknown {α : Type} (d pre rest : List (String × α))
    (k : String) (v : α)
    (hpre : ∀ p ∈ pre, (d.map Prod.fst).contains p.1 = true)
    (hk : (d.map Prod.fst).contains k = false) :
    set_args d (pre ++ (k, v) :: rest) = .error (k ++ " not valid arg") := by
  induction pre generalizing d with
  | nil =>
    rw [List.nil_append, set_args, if_neg (by rw [hk]; exact Bool.false_ne_true)]
  | cons p pre ih =>
    rw [List.cons_append, set_args, if_pos (hpre p (by simp))]
    exact ih (dictUpdate d p.1 p.2)
      (fun q hq => by rw [dictUpdate_keys]; exact hpre q (by simp [hq]))
      (by rw [dictUpdate_keys]; exact hk)

/-- Witness for the amended C8: on the `Primary` field dictionary, the
valid argument `value` is accepted and the following unknown key `foo` is
rejected with the message naming it. -/
theorem set_args_rejects_unknown_witness :
    set_args [("value", ())] ([("value", ())] ++ ("foo", ()) :: []) =
      .error ("foo" ++ " not valid arg") :=
  set_args_rejects_unknown [("value", ())] [("value", ())] [] "foo" ()
    (by decide) (by decide)

end Pymola
